import Mathlib

/-!
# Verification of the obsidian-completr suggestion engine

Shallow embedding of the suggestion aggregation engine, the dictionary
matching engine and the LLM provider client of the obsidian-completr
plugin, together with theorems settling the specification claims.

Strings are modelled as `List Char`.  JavaScript `Map` objects are
modelled as association lists preserving insertion order (which is the
iteration order of a JavaScript `Map`).
-/

namespace Completr

/-- JavaScript strings, modelled as lists of characters. -/
abbrev Str := List Char

/-- Model of `String.prototype.toLowerCase` (per character). -/
def lowerStr (s : Str) : Str := s.map Char.toLower

/-- Model of `String.prototype.toUpperCase` (per character). -/
def upperStr (s : Str) : Str := s.map Char.toUpper

/-- `maybeLowerCase` from `src/editor_helpers.ts`.
Modelled from the spec: `lowercase(s, enabled)` lowercases `s` when
`enabled` holds, otherwise returns it unchanged (the helper itself is
imported by `dictionary_provider.ts` but its defining file is not part
of the provided sources). -/
def maybeLowerCase (s : Str) (lowerCase : Bool) : Str :=
  if lowerCase then lowerStr s else s

/-- Unicode canonical decomposition of a single character, restricted to
the mappings exercised here; characters without a listed decomposition
decompose to themselves.  Models `String.prototype.normalize("NFD")`
applied characterwise. -/
def nfdChar (c : Char) : List Char :=
  if c = 'é' then ['e', Char.ofNat 0x0301]
  else if c = 'É' then ['E', Char.ofNat 0x0301]
  else if c = 'à' then ['a', Char.ofNat 0x0300]
  else if c = 'ü' then ['u', Char.ofNat 0x0308]
  else if c = 'ö' then ['o', Char.ofNat 0x0308]
  else if c = 'ä' then ['a', Char.ofNat 0x0308]
  else [c]

/-- Is `c` a combining diacritical mark (the range `̀`-`ͯ` of
`DIACRITICS_REGEX` in `dictionary_provider.ts`)? -/
def isCombiningMark (c : Char) : Bool :=
  0x0300 ≤ c.toNat && c.toNat ≤ 0x036f

/-- `removeDiacritics` from `dictionary_provider.ts`:
NFD normalization followed by removal of combining marks. -/
def removeDiacritics (s : Str) : Str :=
  (s.flatMap nfdChar).filter (fun c => !isCombiningMark c)

/-- The `Suggestion` value type (fields relevant to the verified core:
the display name, used as deduplication key, and the replacement text). -/
structure Suggestion where
  displayName : Str
  replacement : Str
deriving DecidableEq, Repr

/-- `Suggestion.fromString` from `src/provider/provider.ts`.
Modelled from the spec: `provider.ts` is not among the provided sources;
per the spec's data model a suggestion built from a plain string is a
verbatim-replacement suggestion, showing and inserting that string. -/
def Suggestion.fromString (s : Str) : Suggestion :=
  { displayName := s, replacement := s }

/-! ## Dictionary provider (`src/provider/dictionary_provider.ts`) -/

/-- `WordInsertionMode` from `src/settings.ts`. -/
inductive WordInsertionMode where
  | matchCaseReplace
  | ignoreCaseReplace
  | ignoreCaseAppend
deriving DecidableEq, Repr

/-- The slice of `CompletrSettings` consumed by `DictionaryProvider`,
together with the result of the provider's abstract `isEnabled` test. -/
structure DictSettings where
  enabled : Bool
  minWordTriggerLength : Nat
  wordInsertionMode : WordInsertionMode
  ignoreDiacriticsWhenFiltering : Bool
deriving DecidableEq, Repr

/-- The word map `Map<string, Iterable<string>>`: an insertion-ordered
association list from first-character keys to word buckets. -/
abbrev WordMap := List (Str × List Str)

/-- `Map.prototype.get`, first matching key. -/
def mapGet (m : WordMap) (k : Str) : Option (List Str) :=
  (m.find? (fun kv => kv.1 == k)).map (·.2)

/-- The `SuggestionCache` record of `dictionary_provider.ts`. -/
structure SuggestionCache where
  query : Str
  ignoreCase : Bool
  ignoreDiacritics : Bool
  firstChar : Str
  matchList : List Str
deriving DecidableEq, Repr

/-- Normalization applied to a word before the prefix test
(the body of `filterIterable`'s per-element normalization). -/
def normalizeWord (w : Str) (ignoreCase ignoreDiacritics : Bool) : Str :=
  let n := maybeLowerCase w ignoreCase
  if ignoreDiacritics then removeDiacritics n else n

/-- `filterIterable` from `dictionary_provider.ts`: keep the words whose
normalized form starts with `query`. -/
def filterIterable (l : List Str) (query : Str) (ignoreCase ignoreDiacritics : Bool) : List Str :=
  l.filter (fun w => query.isPrefixOf (normalizeWord w ignoreCase ignoreDiacritics))

/-- The cache-reuse test of `DictionaryProvider.getSuggestions`
(lines 36–40): identical flags, identical first character, and the new
normalized query textually extends the cached one. -/
def canReuseCache (cache : Option SuggestionCache)
    (ignoreCase ignoreDiacritics : Bool) (firstChar query : Str) : Bool :=
  match cache with
  | none => false
  | some c =>
      c.ignoreCase == ignoreCase && c.ignoreDiacritics == ignoreDiacritics &&
      c.firstChar == firstChar && c.query.isPrefixOf query

/-- The candidate bucket lists of `DictionaryProvider.getSuggestions`
(lines 46–59): the bucket of the first character, additionally the
bucket of its uppercase form when ignoring case, and additionally every
bucket whose key's first character strips to the query's first character
when ignoring diacritics. -/
def candidateBuckets (wordMap : WordMap) (firstChar : Str)
    (ignoreCase ignoreDiacritics : Bool) : List (List Str) :=
  ((mapGet wordMap firstChar).getD []) ::
    ((if ignoreCase then [(mapGet wordMap (upperStr firstChar)).getD []] else []) ++
      (if ignoreDiacritics then
        (wordMap.filter
          (fun kv => removeDiacritics (maybeLowerCase (kv.1.take 1) ignoreCase) == firstChar)).map
          (·.2)
      else []))

/-- The full bucket scan (the `else` branch of lines 68–71): every
candidate bucket filtered by the normalized query. -/
def scanMatches (wordMap : WordMap) (firstChar : Str)
    (ignoreCase ignoreDiacritics : Bool) (query : Str) : List Str :=
  (candidateBuckets wordMap firstChar ignoreCase ignoreDiacritics).flatMap
    (fun el => filterIterable el query ignoreCase ignoreDiacritics)

/-- Query normalization (lines 26–31): lowercase unless in match-case
mode, then strip diacritics when configured. -/
def normalizeQuery (q : Str) (ignoreCase ignoreDiacritics : Bool) : Str :=
  let q := maybeLowerCase q ignoreCase
  if ignoreDiacritics then removeDiacritics q else q

/-- The suggestion mapping of lines 82–87: in ignore-case-append mode
the typed query is concatenated with the tail of the match, otherwise
the match is emitted verbatim. -/
def mapMatchesToSuggestions (matchList : List Str) (ctxQuery : Str)
    (mode : WordInsertionMode) (queryLen : Nat) : List Suggestion :=
  if mode = WordInsertionMode.ignoreCaseAppend then
    matchList.map (fun s => Suggestion.fromString (ctxQuery ++ s.drop queryLen))
  else
    matchList.map (fun s => Suggestion.fromString s)

/-- The length comparator of line 92 (`a.displayName.length - b.displayName.length`),
used through a stable sort. -/
def suggestionLenLE (a b : Suggestion) : Bool :=
  a.displayName.length ≤ b.displayName.length

/-- The `ignoreCase` flag of line 26: every insertion mode except
match-case-and-replace compares case-insensitively. -/
def insertionIgnoreCase (m : WordInsertionMode) : Bool :=
  m != WordInsertionMode.matchCaseReplace

/-- The match-list computation of lines 64–71: filter the cached match
list when the cache is reusable, otherwise scan every candidate bucket. -/
def dictMatches (wordMap : WordMap) :
    Option SuggestionCache → Bool → Bool → Str → Str → List Str
  | some c, ignoreCase, ignoreDiacritics, firstChar, query =>
      if canReuseCache (some c) ignoreCase ignoreDiacritics firstChar query then
        filterIterable c.matchList query ignoreCase ignoreDiacritics
      else
        scanMatches wordMap firstChar ignoreCase ignoreDiacritics query
  | none, ignoreCase, ignoreDiacritics, firstChar, query =>
      scanMatches wordMap firstChar ignoreCase ignoreDiacritics query

/-- `DictionaryProvider.getSuggestions`.  Takes the provider's cache
field as explicit state and returns the produced suggestions together
with the new cache state. -/
def dictGetSuggestions (wordMap : WordMap) (cache : Option SuggestionCache)
    (ctxQuery : Str) (s : DictSettings) : List Suggestion × Option SuggestionCache :=
  if s.enabled = false ∨ ctxQuery = [] ∨ ctxQuery.length < s.minWordTriggerLength then
    ([], cache)
  else
    let ignoreCase := insertionIgnoreCase s.wordInsertionMode
    let ignoreDiacritics := s.ignoreDiacriticsWhenFiltering
    let query := normalizeQuery ctxQuery ignoreCase ignoreDiacritics
    let firstChar := query.take 1
    let reuse := canReuseCache cache ignoreCase ignoreDiacritics firstChar query
    let bucketLists := candidateBuckets wordMap firstChar ignoreCase ignoreDiacritics
    if bucketLists.length < 1 then
      ([], if reuse then cache else none)
    else
      let matchList := dictMatches wordMap cache ignoreCase ignoreDiacritics firstChar query
      let newCache : SuggestionCache :=
        { query := query, ignoreCase := ignoreCase, ignoreDiacritics := ignoreDiacritics,
          firstChar := firstChar, matchList := matchList }
      let result :=
        (mapMatchesToSuggestions matchList ctxQuery s.wordInsertionMode query.length).mergeSort
          suggestionLenLE
      (result, some newCache)

/-! ### Dictionary provider lemmas -/

theorem filterIterable_filterIterable (l : List Str) {q0 q1 : Str} (h : q0 <+: q1)
    (ic idia : Bool) :
    filterIterable (filterIterable l q0 ic idia) q1 ic idia = filterIterable l q1 ic idia := by
  unfold filterIterable
  rw [List.filter_filter]
  apply List.filter_congr
  intro w _
  cases hq1 : q1.isPrefixOf (normalizeWord w ic idia) with
  | false => simp
  | true =>
    have h0 : q0.isPrefixOf (normalizeWord w ic idia) = true := by
      rw [List.isPrefixOf_iff_prefix] at hq1 ⊢
      exact h.trans hq1
    simp [h0]

theorem filterIterable_scanMatches (wordMap : WordMap) (fc : Str) {q0 q1 : Str}
    (h : q0 <+: q1) (ic idia : Bool) :
    filterIterable (scanMatches wordMap fc ic idia q0) q1 ic idia
      = scanMatches wordMap fc ic idia q1 := by
  unfold scanMatches
  show filterIterable _ q1 ic idia = _
  unfold filterIterable
  rw [List.filter_flatMap]
  apply congrArg
  funext el
  exact filterIterable_filterIterable el h ic idia

theorem filterIterable_dictMatches (wordMap : WordMap) (cache : Option SuggestionCache)
    (ic idia : Bool) (fc q : Str) :
    filterIterable (dictMatches wordMap cache ic idia fc q) q ic idia
      = dictMatches wordMap cache ic idia fc q := by
  match cache with
  | none =>
    simp only [dictMatches]
    exact filterIterable_scanMatches wordMap fc (List.prefix_refl q) ic idia
  | some c =>
    simp only [dictMatches]
    by_cases hr : canReuseCache (some c) ic idia fc q = true
    · rw [if_pos hr]
      exact filterIterable_filterIterable c.matchList (List.prefix_refl q) ic idia
    · rw [if_neg hr]
      exact filterIterable_scanMatches wordMap fc (List.prefix_refl q) ic idia

theorem candidateBuckets_length_pos (wordMap : WordMap) (fc : Str) (ic idia : Bool) :
    ¬ (candidateBuckets wordMap fc ic idia).length < 1 := by
  simp [candidateBuckets]

/-- Unfolding of `dictGetSuggestions` when the early-exit guard does not
fire: the result is the sorted mapped match list, and the new cache
records the normalized query, the flags, the first character and the
match list. -/
theorem dictGetSuggestions_eq (wordMap : WordMap) (cache : Option SuggestionCache)
    (ctxQuery : Str) (s : DictSettings)
    (hEnabled : s.enabled = true) (hNe : ctxQuery ≠ [])
    (hLen : s.minWordTriggerLength ≤ ctxQuery.length) :
    dictGetSuggestions wordMap cache ctxQuery s =
      ((mapMatchesToSuggestions
          (dictMatches wordMap cache (insertionIgnoreCase s.wordInsertionMode)
            s.ignoreDiacriticsWhenFiltering
            ((normalizeQuery ctxQuery (insertionIgnoreCase s.wordInsertionMode)
              s.ignoreDiacriticsWhenFiltering).take 1)
            (normalizeQuery ctxQuery (insertionIgnoreCase s.wordInsertionMode)
              s.ignoreDiacriticsWhenFiltering))
          ctxQuery s.wordInsertionMode
          (normalizeQuery ctxQuery (insertionIgnoreCase s.wordInsertionMode)
            s.ignoreDiacriticsWhenFiltering).length).mergeSort suggestionLenLE,
        some
          { query := normalizeQuery ctxQuery (insertionIgnoreCase s.wordInsertionMode)
              s.ignoreDiacriticsWhenFiltering,
            ignoreCase := insertionIgnoreCase s.wordInsertionMode,
            ignoreDiacritics := s.ignoreDiacriticsWhenFiltering,
            firstChar := (normalizeQuery ctxQuery (insertionIgnoreCase s.wordInsertionMode)
              s.ignoreDiacriticsWhenFiltering).take 1,
            matchList := dictMatches wordMap cache (insertionIgnoreCase s.wordInsertionMode)
              s.ignoreDiacriticsWhenFiltering
              ((normalizeQuery ctxQuery (insertionIgnoreCase s.wordInsertionMode)
                s.ignoreDiacriticsWhenFiltering).take 1)
              (normalizeQuery ctxQuery (insertionIgnoreCase s.wordInsertionMode)
                s.ignoreDiacriticsWhenFiltering) }) := by
  have hguard : ¬(s.enabled = false ∨ ctxQuery = [] ∨
      ctxQuery.length < s.minWordTriggerLength) := by
    simp [hEnabled, hNe, Nat.not_lt.mpr hLen]
  unfold dictGetSuggestions
  rw [if_neg hguard,
    if_neg (candidateBuckets_length_pos wordMap _ (insertionIgnoreCase s.wordInsertionMode)
      s.ignoreDiacriticsWhenFiltering)]

theorem canReuseCache_newCache (q fc : Str) (ic idia : Bool) (ml : List Str) :
    canReuseCache (some ⟨q, ic, idia, fc, ml⟩) ic idia fc q = true := by
  simp [canReuseCache, List.isPrefixOf_iff_prefix]

theorem dictMatches_newCache (wordMap' : WordMap) (ic idia : Bool) (fc q : Str)
    (M : List Str) (hM : filterIterable M q ic idia = M) :
    dictMatches wordMap' (some ⟨q, ic, idia, fc, M⟩) ic idia fc q = M := by
  simp only [dictMatches]
  rw [if_pos (canReuseCache_newCache q fc ic idia M)]
  exact hM

theorem suggestionLenLE_trans (a b c : Suggestion) (h1 : suggestionLenLE a b = true)
    (h2 : suggestionLenLE b c = true) : suggestionLenLE a c = true := by
  simp [suggestionLenLE] at *
  omega

theorem suggestionLenLE_total (a b : Suggestion) :
    (suggestionLenLE a b || suggestionLenLE b a) = true := by
  simp [suggestionLenLE]
  omega

theorem dict_result_pairwise (wordMap : WordMap) (cache : Option SuggestionCache)
    (ctxQ : Str) (s : DictSettings) :
    ((dictGetSuggestions wordMap cache ctxQ s).1).Pairwise
      (fun a b => a.displayName.length ≤ b.displayName.length) := by
  by_cases hg : s.enabled = false ∨ ctxQ = [] ∨ ctxQ.length < s.minWordTriggerLength
  · unfold dictGetSuggestions
    rw [if_pos hg]
    simp
  · push_neg at hg
    obtain ⟨h1, h2, h3⟩ := hg
    rw [dictGetSuggestions_eq wordMap cache ctxQ s (by revert h1; cases s.enabled <;> simp) h2 h3]
    refine List.Pairwise.imp ?_
      (List.sorted_mergeSort suggestionLenLE_trans suggestionLenLE_total _)
    intro a b h
    simpa [suggestionLenLE] using h

theorem mergeSort_stable_filter (l : List Suggestion) (n : Nat) :
    (l.mergeSort suggestionLenLE).filter (fun a => a.displayName.length == n)
      = l.filter (fun a => a.displayName.length == n) := by
  have hmemlen : ∀ a ∈ l.filter (fun a => a.displayName.length == n),
      a.displayName.length = n := by
    intro a ha
    simpa using List.of_mem_filter ha
  have hpair : (l.filter (fun a => a.displayName.length == n)).Pairwise
      (fun a b => suggestionLenLE a b = true) := by
    apply List.pairwise_of_forall_mem_list
    intro a ha b hb
    simp [suggestionLenLE, hmemlen a ha, hmemlen b hb]
  have hsub : List.Sublist (l.filter (fun a => a.displayName.length == n))
      (l.mergeSort suggestionLenLE) :=
    List.sublist_mergeSort suggestionLenLE_trans suggestionLenLE_total hpair
      (List.filter_sublist l)
  have hsub2 : List.Sublist (l.filter (fun a => a.displayName.length == n))
      ((l.mergeSort suggestionLenLE).filter (fun a => a.displayName.length == n)) := by
    have hidem : (l.filter (fun a => a.displayName.length == n)).filter
        (fun a => a.displayName.length == n) = l.filter (fun a => a.displayName.length == n) :=
      List.filter_eq_self.mpr (fun a ha => by simp [hmemlen a ha])
    have := hsub.filter (fun a => a.displayName.length == n)
    rwa [hidem] at this
  have hperm : ((l.mergeSort suggestionLenLE).filter (fun a => a.displayName.length == n)).Perm
      (l.filter (fun a => a.displayName.length == n)) :=
    (List.mergeSort_perm l suggestionLenLE).filter _
  exact (hsub2.eq_of_length hperm.length_eq.symm).symm

/-! ### Claim theorems for the dictionary provider -/

/-- C1: for every dictionary word map, every settings configuration and
every query that strictly extends a previously cached query computed
under the same `ignoreCase`/`ignoreDiacritics` flags and the same
normalized first character, `DictionaryProvider.getSuggestions` through
the cache-reuse path (filtering the cached match list) returns exactly
the result a from-scratch rescan of the candidate buckets produces. -/
theorem dict_cacheReuse_eq_rescan (wordMap : WordMap) (s : DictSettings) (c : SuggestionCache)
    (ctxQ1 : Str) (hEnabled : s.enabled = true) (hNe : ctxQ1 ≠ [])
    (hLen : s.minWordTriggerLength ≤ ctxQ1.length)
    (hIC : c.ignoreCase = insertionIgnoreCase s.wordInsertionMode)
    (hID : c.ignoreDiacritics = s.ignoreDiacriticsWhenFiltering)
    (hFC : c.firstChar = (normalizeQuery ctxQ1 (insertionIgnoreCase s.wordInsertionMode)
      s.ignoreDiacriticsWhenFiltering).take 1)
    (hPre : c.query <+: normalizeQuery ctxQ1 (insertionIgnoreCase s.wordInsertionMode)
      s.ignoreDiacriticsWhenFiltering)
    (hStrict : c.query ≠ normalizeQuery ctxQ1 (insertionIgnoreCase s.wordInsertionMode)
      s.ignoreDiacriticsWhenFiltering)
    (hMatch : c.matchList = scanMatches wordMap c.firstChar c.ignoreCase c.ignoreDiacritics
      c.query) :
    dictGetSuggestions wordMap (some c) ctxQ1 s = dictGetSuggestions wordMap none ctxQ1 s := by
  have hmm : dictMatches wordMap (some c) (insertionIgnoreCase s.wordInsertionMode)
      s.ignoreDiacriticsWhenFiltering
      ((normalizeQuery ctxQ1 (insertionIgnoreCase s.wordInsertionMode)
        s.ignoreDiacriticsWhenFiltering).take 1)
      (normalizeQuery ctxQ1 (insertionIgnoreCase s.wordInsertionMode)
        s.ignoreDiacriticsWhenFiltering) =
      dictMatches wordMap none (insertionIgnoreCase s.wordInsertionMode)
      s.ignoreDiacriticsWhenFiltering
      ((normalizeQuery ctxQ1 (insertionIgnoreCase s.wordInsertionMode)
        s.ignoreDiacriticsWhenFiltering).take 1)
      (normalizeQuery ctxQ1 (insertionIgnoreCase s.wordInsertionMode)
        s.ignoreDiacriticsWhenFiltering) := by
    simp only [dictMatches]
    have hr : canReuseCache (some c) (insertionIgnoreCase s.wordInsertionMode)
        s.ignoreDiacriticsWhenFiltering
        ((normalizeQuery ctxQ1 (insertionIgnoreCase s.wordInsertionMode)
          s.ignoreDiacriticsWhenFiltering).take 1)
        (normalizeQuery ctxQ1 (insertionIgnoreCase s.wordInsertionMode)
          s.ignoreDiacriticsWhenFiltering) = true := by
      simp [canReuseCache, hIC, hID, hFC, List.isPrefixOf_iff_prefix, hPre]
    rw [if_pos hr, hMatch, hIC, hID, hFC]
    exact filterIterable_scanMatches wordMap _ hPre _ _
  rw [dictGetSuggestions_eq wordMap (some c) ctxQ1 s hEnabled hNe hLen,
    dictGetSuggestions_eq wordMap none ctxQ1 s hEnabled hNe hLen, hmm]

/-- Witness for C1: a two-word dictionary, cached query `"wo"`, new
query `"wor"`. -/
theorem dict_cacheReuse_eq_rescan_witness :
    dictGetSuggestions [(['w'], ["word".toList, "wing".toList])]
        (some { query := "wo".toList, ignoreCase := true, ignoreDiacritics := false,
                firstChar := ['w'],
                matchList := scanMatches [(['w'], ["word".toList, "wing".toList])] ['w'] true
                  false "wo".toList })
        "wor".toList
        { enabled := true, minWordTriggerLength := 3,
          wordInsertionMode := .ignoreCaseReplace, ignoreDiacriticsWhenFiltering := false } =
      dictGetSuggestions [(['w'], ["word".toList, "wing".toList])] none "wor".toList
        { enabled := true, minWordTriggerLength := 3,
          wordInsertionMode := .ignoreCaseReplace, ignoreDiacriticsWhenFiltering := false } :=
  dict_cacheReuse_eq_rescan _ _ _ _ rfl (by decide) (by decide) rfl rfl (by decide)
    (by decide) (by decide) rfl

/-- C9: when the provider is disabled, the query empty, or the query
shorter than the configured minimum trigger length,
`DictionaryProvider.getSuggestions` returns the empty list and leaves
the suggestion cache untouched. -/
theorem dict_earlyExit_noMutation (wordMap : WordMap) (cache : Option SuggestionCache)
    (ctxQ : Str) (s : DictSettings)
    (h : s.enabled = false ∨ ctxQ = [] ∨ ctxQ.length < s.minWordTriggerLength) :
    dictGetSuggestions wordMap cache ctxQ s = ([], cache) := by
  unfold dictGetSuggestions
  rw [if_pos h]

/-- Witness for C9: a two-character query below the minimum length of 3,
with a nonempty cache that is left in place. -/
theorem dict_earlyExit_noMutation_witness :
    ("wo".toList : Str).length < 3 ∧
      dictGetSuggestions [(['w'], ["word".toList])]
          (some { query := ['w'], ignoreCase := true, ignoreDiacritics := false,
                  firstChar := ['w'], matchList := ["word".toList] })
          "wo".toList
          { enabled := true, minWordTriggerLength := 3,
            wordInsertionMode := .ignoreCaseReplace, ignoreDiacriticsWhenFiltering := false } =
        ([], some { query := ['w'], ignoreCase := true, ignoreDiacritics := false,
                    firstChar := ['w'], matchList := ["word".toList] }) :=
  ⟨by decide, dict_earlyExit_noMutation _ _ _ _ (Or.inr (Or.inr (by decide)))⟩

/-- C10: for a fixed word map and settings with a query of at least the
minimum trigger length, two successive calls of
`DictionaryProvider.getSuggestions` with the identical context return
equal suggestion lists, and the second call satisfies the cache-reuse
condition (`query.startsWith(cached.query)` accepts an equal query). -/
theorem dict_repeat_idempotent (wordMap : WordMap) (c0 : Option SuggestionCache)
    (ctxQ : Str) (s : DictSettings) (hEnabled : s.enabled = true) (hNe : ctxQ ≠ [])
    (hLen : s.minWordTriggerLength ≤ ctxQ.length) :
    (dictGetSuggestions wordMap (dictGetSuggestions wordMap c0 ctxQ s).2 ctxQ s).1
        = (dictGetSuggestions wordMap c0 ctxQ s).1
      ∧ canReuseCache (dictGetSuggestions wordMap c0 ctxQ s).2
          (insertionIgnoreCase s.wordInsertionMode) s.ignoreDiacriticsWhenFiltering
          ((normalizeQuery ctxQ (insertionIgnoreCase s.wordInsertionMode)
            s.ignoreDiacriticsWhenFiltering).take 1)
          (normalizeQuery ctxQ (insertionIgnoreCase s.wordInsertionMode)
            s.ignoreDiacriticsWhenFiltering) = true := by
  simp only [dictGetSuggestions_eq _ _ ctxQ s hEnabled hNe hLen]
  constructor
  · rw [dictMatches_newCache wordMap _ _ _ _ _ (filterIterable_dictMatches wordMap c0 _ _ _ _)]
  · exact canReuseCache_newCache _ _ _ _ _

/-- Witness for C10. -/
theorem dict_repeat_idempotent_witness :
    (dictGetSuggestions [(['w'], ["word".toList])]
          (dictGetSuggestions [(['w'], ["word".toList])] none "wor".toList
            { enabled := true, minWordTriggerLength := 3,
              wordInsertionMode := .ignoreCaseReplace,
              ignoreDiacriticsWhenFiltering := false }).2
          "wor".toList
          { enabled := true, minWordTriggerLength := 3,
            wordInsertionMode := .ignoreCaseReplace,
            ignoreDiacriticsWhenFiltering := false }).1
        = (dictGetSuggestions [(['w'], ["word".toList])] none "wor".toList
            { enabled := true, minWordTriggerLength := 3,
              wordInsertionMode := .ignoreCaseReplace,
              ignoreDiacriticsWhenFiltering := false }).1
      ∧ canReuseCache
          (dictGetSuggestions [(['w'], ["word".toList])] none "wor".toList
            { enabled := true, minWordTriggerLength := 3,
              wordInsertionMode := .ignoreCaseReplace,
              ignoreDiacriticsWhenFiltering := false }).2
          (insertionIgnoreCase WordInsertionMode.ignoreCaseReplace) false
          ((normalizeQuery "wor".toList
            (insertionIgnoreCase WordInsertionMode.ignoreCaseReplace) false).take 1)
          (normalizeQuery "wor".toList
            (insertionIgnoreCase WordInsertionMode.ignoreCaseReplace) false) = true :=
  dict_repeat_idempotent _ none _ _ rfl (by decide) (by decide)

/-- C8: `DictionaryProvider.getSuggestions` returns suggestions sorted
by display-text length ascending; the sort is stable (elements of equal
display length keep their pre-sort relative order); and the query
`"wor"` against the dictionary `{"word","world","work"}` in
case-insensitive mode yields `["word","work","world"]`, each a
verbatim-replacement suggestion. -/
theorem dict_sorted_stable_scenario :
    (∀ (wordMap : WordMap) (cache : Option SuggestionCache) (ctxQ : Str) (s : DictSettings),
        ((dictGetSuggestions wordMap cache ctxQ s).1).Pairwise
          (fun a b => a.displayName.length ≤ b.displayName.length))
    ∧ (∀ (l : List Suggestion) (n : Nat),
        (l.mergeSort suggestionLenLE).filter (fun a => a.displayName.length == n)
          = l.filter (fun a => a.displayName.length == n))
    ∧ (dictGetSuggestions [(['w'], ["word".toList, "world".toList, "work".toList])] none
          "wor".toList
          { enabled := true, minWordTriggerLength := 3,
            wordInsertionMode := .ignoreCaseReplace,
            ignoreDiacriticsWhenFiltering := false }).1
        = [Suggestion.fromString "word".toList, Suggestion.fromString "work".toList,
            Suggestion.fromString "world".toList] :=
  ⟨dict_result_pairwise, mergeSort_stable_filter, by
    simp [dictGetSuggestions, dictMatches, canReuseCache, scanMatches, candidateBuckets,
      mapGet, filterIterable, normalizeWord, normalizeQuery, maybeLowerCase, lowerStr,
      upperStr, insertionIgnoreCase, mapMatchesToSuggestions, Suggestion.fromString,
      suggestionLenLE, removeDiacritics, List.mergeSort, List.merge]⟩

/-! ## Suggestion popup aggregator (`SuggestionPopup.getSuggestions`)

The fan-out loop of the popup is modelled as three phases matching the
single-threaded JavaScript event-loop execution of the source:

* the synchronous provider loop (providers invoked in priority order;
  a synchronous throw propagates; a synchronous blocking provider with a
  non-empty result records the blocking index and breaks);
* the asynchronous completion callbacks, which run after the loop in
  some completion order (a permutation of the launched async indices)
  once `Promise.allSettled` is awaited — each records its result slot
  and lowers the blocking index to the minimum;
* the merge loop with `displayName` deduplication and blacklist filter.

A provider's behaviour is a value: either a synchronous return (or
throw), or an asynchronous settlement (resolution or rejection). -/

/-- Outcome of one provider invocation: a synchronous return/throw or an
asynchronous resolution/rejection, each carrying `Suggestion[] | null`. -/
inductive ProviderBehavior where
  | sync (r : Except Unit (Option (List Suggestion)))
  | async (r : Except Unit (Option (List Suggestion)))
deriving Repr

/-- A provider as seen by the popup: its blocking flag and the outcome
its `getSuggestions` produces for the fixed context under scrutiny. -/
structure Prov where
  blocksAllOtherProviders : Bool
  behavior : ProviderBehavior
deriving Repr

/-- The suggestion list a provider contributes after the popup's
null-coalescing (`?? []`) and rejection handling (`.catch(() => [])`):
a throw/rejection or a `null` return contributes the empty list. -/
def delivered (p : Prov) : List Suggestion :=
  match p.behavior with
  | .sync (.ok r) => r.getD []
  | .sync (.error _) => []
  | .async (.ok r) => r.getD []
  | .async (.error _) => []

/-- Is the provider's result a promise? -/
def isAsync (p : Prov) : Bool :=
  match p.behavior with
  | .async _ => true
  | .sync _ => false

/-- Mutable state of one `getSuggestions` invocation of the popup:
the `providerResults` array (`none` = still `undefined`), the blocking
index, and the async indices launched by the loop. -/
structure AggState where
  results : List (Option (List Suggestion))
  blockingIndex : Option Nat
  launched : List Nat
deriving DecidableEq, Repr

/-- The loop-head break test `blockingIndex !== null && i > blockingIndex`. -/
def loopBreak (bi : Option Nat) (i : Nat) : Bool :=
  match bi with
  | some b => decide (b < i)
  | none => false

/-- The synchronous provider loop (lines 85–133 of the popup source),
walking the provider list from absolute index `i`.  A synchronous throw
escapes (the enclosing async function rejects); a synchronous blocking
provider with a non-empty result sets the blocking index and breaks;
async providers are launched and recorded. -/
def syncLoop : List Prov → Nat → AggState → Except Unit AggState
  | [], _, st => .ok st
  | p :: rest, i, st =>
    if loopBreak st.blockingIndex i = true then .ok st
    else
      match p.behavior with
      | .sync (.error e) => .error e
      | .sync (.ok r) =>
          let l := r.getD []
          let st1 : AggState := { st with results := st.results.set i (some l) }
          if 0 < l.length ∧ p.blocksAllOtherProviders = true then
            .ok { st1 with blockingIndex := some i }
          else syncLoop rest (i + 1) st1
      | .async _ => syncLoop rest (i + 1) { st with launched := st.launched ++ [i] }

/-- One asynchronous completion callback (lines 93–112): store the
settled result (rejections and `null` become `[]`) and, for a blocking
provider with a non-empty result, lower the blocking index to the
minimum of the previous one and this provider's index. -/
def asyncStep (provs : List Prov) (st : AggState) (i : Nat) : AggState :=
  match provs[i]? with
  | some p =>
    match p.behavior with
    | .async _ =>
        let l := delivered p
        let st1 : AggState := { st with results := st.results.set i (some l) }
        if 0 < l.length ∧ p.blocksAllOtherProviders = true then
          { st1 with blockingIndex :=
              match st1.blockingIndex with
              | none => some i
              | some b => some (Nat.min b i) }
        else st1
    | .sync _ => st
  | none => st

/-- The merge indices `0 ≤ i ≤ lastIndex`, `i < providerResults.length`,
where `lastIndex = blockingIndex ?? (PROVIDERS.length - 1)` (line 140). -/
def mergeIndices (n : Nat) (bi : Option Nat) : List Nat :=
  List.range (Nat.min (bi.getD (n - 1) + 1) n)

/-- One step of the deduplicating merge (lines 147–156): skip a
suggestion whose display name was already seen or which is blacklisted,
otherwise record its display name and append it. -/
def mergeStep (blacklist : Suggestion → Bool) (acc : List Str × List Suggestion)
    (sug : Suggestion) : List Str × List Suggestion :=
  if acc.1.contains sug.displayName then acc
  else if blacklist sug then acc
  else (acc.1 ++ [sug.displayName], acc.2 ++ [sug])

/-- One provider slot of the merge loop (lines 142–145): an unset or
empty slot is skipped (`continue`), a filled slot is folded through the
deduplicating step. -/
def mergeSlot (st : AggState) (blacklist : Suggestion → Bool)
    (acc : List Str × List Suggestion) (i : Nat) : List Str × List Suggestion :=
  match st.results[i]? with
  | some (some l) => if l.length = 0 then acc else l.foldl (mergeStep blacklist) acc
  | _ => acc

/-- The merge phase (lines 138–159): accumulate the deduplicated,
blacklist-filtered suggestions of slots `0..lastIndex`, returning `null`
(modelled `none`) when the merged list is empty. -/
def mergePhase (st : AggState) (blacklist : Suggestion → Bool) : Option (List Suggestion) :=
  let merged := (mergeIndices st.results.length st.blockingIndex).foldl
    (mergeSlot st blacklist) ([], [])
  if merged.2.length = 0 then none else some merged.2

/-- The initial state: `new Array(PROVIDERS.length)` of undefined slots,
no blocking index, nothing launched. -/
def initState (n : Nat) : AggState :=
  { results := List.replicate n none, blockingIndex := none, launched := [] }

/-- `SuggestionPopup.getSuggestions`: run the synchronous loop (whose
synchronous throws propagate), then the async completion callbacks in
completion order `order`, then the merge.  Returns the final result and
the final state. -/
def aggGetSuggestions (provs : List Prov) (order : List Nat)
    (blacklist : Suggestion → Bool) : Except Unit (Option (List Suggestion) × AggState) :=
  (syncLoop provs 0 (initState provs.length)).map (fun st1 =>
    let st2 := order.foldl (asyncStep provs) st1
    (mergePhase st2 blacklist, st2))

/-! ### Aggregator lemmas -/

/-- A provider that is asynchronous, blocking, and settles non-empty:
exactly the situations in which an async completion callback updates the
blocking index. -/
def blockingNonemptyAsync (provs : List Prov) (j : Nat) : Prop :=
  ∃ p, provs[j]? = some p ∧ isAsync p = true ∧ p.blocksAllOtherProviders = true ∧
    delivered p ≠ []

theorem syncLoop_launched_mono (l : List Prov) : ∀ (k : Nat) (st st' : AggState),
    syncLoop l k st = .ok st' → ∃ t, st'.launched = st.launched ++ t := by
  induction l with
  | nil =>
    intro k st st' h
    simp only [syncLoop] at h
    cases h
    exact ⟨[], by simp⟩
  | cons p rest ih =>
    intro k st st' h
    obtain ⟨blocks, behavior⟩ := p
    simp only [syncLoop] at h
    by_cases hbk : loopBreak st.blockingIndex k = true
    · rw [if_pos hbk] at h
      cases h
      exact ⟨[], by simp⟩
    · rw [if_neg hbk] at h
      cases behavior with
      | sync r =>
        cases r with
        | error e => exact absurd h (by simp)
        | ok v =>
          dsimp only at h
          by_cases hcond : 0 < (v.getD []).length ∧ blocks = true
          · rw [if_pos hcond] at h
            cases h
            exact ⟨[], by simp⟩
          · rw [if_neg hcond] at h
            have hrec := ih (k + 1) _ st' h
            exact hrec
      | async r =>
        dsimp only at h
        obtain ⟨t, ht⟩ := ih (k + 1) _ st' h
        exact ⟨k :: t, by simpa using ht⟩

theorem syncLoop_bi_lb (l : List Prov) : ∀ (k : Nat) (st st' : AggState),
    syncLoop l k st = .ok st' → st.blockingIndex = none →
    st'.blockingIndex = none ∨ ∃ b, st'.blockingIndex = some b ∧ k ≤ b := by
  induction l with
  | nil =>
    intro k st st' h hbi
    simp only [syncLoop] at h
    cases h
    exact Or.inl hbi
  | cons p rest ih =>
    intro k st st' h hbi
    obtain ⟨blocks, behavior⟩ := p
    simp only [syncLoop] at h
    rw [if_neg (by rw [hbi]; simp [loopBreak])] at h
    cases behavior with
    | sync r =>
      cases r with
      | error e => exact absurd h (by simp)
      | ok v =>
        dsimp only at h
        by_cases hcond : 0 < (v.getD []).length ∧ blocks = true
        · rw [if_pos hcond] at h
          cases h
          exact Or.inr ⟨k, rfl, Nat.le_refl k⟩
        · rw [if_neg hcond] at h
          rcases ih (k + 1) _ st' h hbi with h' | ⟨b, hb, hkb⟩
          · exact Or.inl h'
          · exact Or.inr ⟨b, hb, Nat.le_of_succ_le hkb⟩
    | async r =>
      dsimp only at h
      rcases ih (k + 1) _ st' h hbi with h' | ⟨b, hb, hkb⟩
      · exact Or.inl h'
      · exact Or.inr ⟨b, hb, Nat.le_of_succ_le hkb⟩

theorem syncLoop_results_inv (provs : List Prov) (P : Nat → List Suggestion → Prop)
    (hP : ∀ j q, provs[j]? = some q → P j (delivered q)) :
    ∀ (l : List Prov) (k : Nat), l = provs.drop k → ∀ (st st' : AggState),
    syncLoop l k st = .ok st' →
    (∀ j l', st.results[j]? = some (some l') → P j l') →
    ∀ j l', st'.results[j]? = some (some l') → P j l' := by
  intro l
  induction l with
  | nil =>
    intro k _ st st' h hst
    simp only [syncLoop] at h
    cases h
    exact hst
  | cons p rest ih =>
    intro k hdrop st st' h hst
    have hhead : provs[k]? = some p := by
      have := List.getElem?_drop provs k 0
      rw [← hdrop] at this
      simpa using this.symm
    have htail : rest = provs.drop (k + 1) := by
      have : (provs.drop k).drop 1 = provs.drop (k + 1) := by
        rw [List.drop_drop]
      rw [← hdrop] at this
      simpa using this
    obtain ⟨blocks, behavior⟩ := p
    simp only [syncLoop] at h
    by_cases hbk : loopBreak st.blockingIndex k = true
    · rw [if_pos hbk] at h
      cases h
      exact hst
    · rw [if_neg hbk] at h
      cases behavior with
      | sync r =>
        cases r with
        | error e => exact absurd h (by simp)
        | ok v =>
          dsimp only at h
          have hstep : ∀ j l',
              (st.results.set k (some (v.getD [])))[j]? = some (some l') → P j l' := by
            intro j l' hj
            rw [List.getElem?_set] at hj
            by_cases hkj : k = j
            · rw [if_pos hkj] at hj
              by_cases hlen : k < st.results.length
              · rw [if_pos hlen] at hj
                have hv : l' = v.getD [] := by
                  injection hj with hj'
                  injection hj' with hj''
                  exact hj''.symm
                subst hkj
                have := hP k ⟨blocks, ProviderBehavior.sync (Except.ok v)⟩ hhead
                simpa [delivered, hv] using this
              · rw [if_neg hlen] at hj
                exact absurd hj (by simp)
            · rw [if_neg hkj] at hj
              exact hst j l' hj
          by_cases hcond : 0 < (v.getD []).length ∧ blocks = true
          · rw [if_pos hcond] at h
            cases h
            exact hstep
          · rw [if_neg hcond] at h
            exact ih (k + 1) htail _ st' h hstep
      | async r =>
        dsimp only at h
        exact ih (k + 1) htail _ st' h hst

theorem asyncStep_results_inv (provs : List Prov) (P : Nat → List Suggestion → Prop)
    (hP : ∀ j q, provs[j]? = some q → P j (delivered q)) (st : AggState) (i : Nat)
    (hst : ∀ j l', st.results[j]? = some (some l') → P j l') :
    ∀ j l', (asyncStep provs st i).results[j]? = some (some l') → P j l' := by
  intro j l' h
  unfold asyncStep at h
  cases hpi : provs[i]? with
  | none =>
    rw [hpi] at h
    exact hst j l' h
  | some p =>
    rw [hpi] at h
    dsimp only at h
    cases hb : p.behavior with
    | sync r =>
      rw [hb] at h
      exact hst j l' h
    | async r =>
      rw [hb] at h
      dsimp only at h
      have hres : (st.results.set i (some (delivered p)))[j]? = some (some l') := by
        by_cases hcond : 0 < (delivered p).length ∧ p.blocksAllOtherProviders = true
        · rw [if_pos hcond] at h
          exact h
        · rw [if_neg hcond] at h
          exact h
      rw [List.getElem?_set] at hres
      by_cases hij : i = j
      · rw [if_pos hij] at hres
        by_cases hlen : i < st.results.length
        · rw [if_pos hlen] at hres
          have hv : l' = delivered p := by
            injection hres with h1
            injection h1 with h2
            exact h2.symm
          subst hij
          rw [hv]
          exact hP i p hpi
        · rw [if_neg hlen] at hres
          exact absurd hres (by simp)
      · rw [if_neg hij] at hres
        exact hst j l' hres

theorem asyncFold_results_inv (provs : List Prov) (P : Nat → List Suggestion → Prop)
    (hP : ∀ j q, provs[j]? = some q → P j (delivered q)) :
    ∀ (order : List Nat) (st : AggState),
    (∀ j l', st.results[j]? = some (some l') → P j l') →
    ∀ j l', ((order.foldl (asyncStep provs) st).results[j]? = some (some l') → P j l') := by
  intro order
  induction order with
  | nil => intro st hst; exact hst
  | cons o os ih =>
    intro st hst
    exact ih _ (asyncStep_results_inv provs P hP st o hst)

theorem asyncStep_bi_of_not (provs : List Prov) (st : AggState) (i : Nat)
    (h : ¬ blockingNonemptyAsync provs i) :
    (asyncStep provs st i).blockingIndex = st.blockingIndex := by
  unfold asyncStep
  cases hpi : provs[i]? with
  | none => rfl
  | some p =>
    obtain ⟨blocks, behavior⟩ := p
    dsimp only
    cases behavior with
    | sync r => rfl
    | async r =>
      dsimp only
      by_cases hcond :
          0 < (delivered ⟨blocks, ProviderBehavior.async r⟩).length ∧ blocks = true
      · refine absurd ⟨⟨blocks, ProviderBehavior.async r⟩, hpi, rfl, hcond.2, ?_⟩ h
        intro hnil
        rw [hnil] at hcond
        exact absurd hcond.1 (by simp)
      · rw [if_neg hcond]

theorem asyncStep_bi_of (provs : List Prov) (st : AggState) (i : Nat)
    (h : blockingNonemptyAsync provs i) :
    (asyncStep provs st i).blockingIndex =
      match st.blockingIndex with
      | none => some i
      | some b => some (Nat.min b i) := by
  obtain ⟨p, hpi, hasync, hblocks, hne⟩ := h
  unfold asyncStep
  rw [hpi]
  obtain ⟨blocks, behavior⟩ := p
  dsimp only
  cases behavior with
  | sync r => exact absurd hasync (by simp [isAsync])
  | async r =>
    dsimp only
    dsimp only at hblocks
    rw [if_pos ⟨by
      cases hd : delivered ⟨blocks, ProviderBehavior.async r⟩ with
      | nil => exact absurd hd hne
      | cons x xs => simp [hd], hblocks⟩]

theorem asyncStep_launched (provs : List Prov) (st : AggState) (i : Nat) :
    (asyncStep provs st i).launched = st.launched := by
  unfold asyncStep
  cases provs[i]? with
  | none => rfl
  | some p =>
    obtain ⟨blocks, behavior⟩ := p
    dsimp only
    cases behavior with
    | sync r => rfl
    | async r =>
      dsimp only
      by_cases hcond :
          0 < (delivered ⟨blocks, ProviderBehavior.async r⟩).length ∧ blocks = true
      · rw [if_pos hcond]
      · rw [if_neg hcond]

theorem asyncFold_bi_keep (provs : List Prov) (i : Nat) :
    ∀ (order : List Nat) (st : AggState), st.blockingIndex = some i →
    (∀ j, blockingNonemptyAsync provs j → i ≤ j) →
    (order.foldl (asyncStep provs) st).blockingIndex = some i := by
  intro order
  induction order with
  | nil => intro st hst _; exact hst
  | cons o os ih =>
    intro st hst hmin
    apply ih
    · by_cases hbna : blockingNonemptyAsync provs o
      · rw [asyncStep_bi_of provs st o hbna, hst]
        have : Nat.min i o = i := Nat.min_eq_left (hmin o hbna)
        simp [this]
      · rw [asyncStep_bi_of_not provs st o hbna, hst]
    · exact hmin

theorem asyncFold_bi_reach (provs : List Prov) (i : Nat) :
    ∀ (order : List Nat) (st : AggState),
    (st.blockingIndex = none ∨ ∃ b, st.blockingIndex = some b ∧ i ≤ b) →
    i ∈ order → blockingNonemptyAsync provs i →
    (∀ j, blockingNonemptyAsync provs j → i ≤ j) →
    (order.foldl (asyncStep provs) st).blockingIndex = some i := by
  intro order
  induction order with
  | nil => intro st _ hmem _ _; exact absurd hmem (by simp)
  | cons o os ih =>
    intro st hub hmem hbna hmin
    by_cases hoi : o = i
    · subst hoi
      have hstep : (asyncStep provs st o).blockingIndex = some o := by
        rw [asyncStep_bi_of provs st o hbna]
        rcases hub with h | ⟨b, hb, hob⟩
        · rw [h]
        · rw [hb]
          simp [Nat.min_eq_right hob]
      exact asyncFold_bi_keep provs o os _ hstep hmin
    · have hmem' : i ∈ os := by
        rcases List.mem_cons.mp hmem with h | h
        · exact absurd h.symm hoi
        · exact h
      apply ih _ _ hmem' hbna hmin
      by_cases hbno : blockingNonemptyAsync provs o
      · rw [asyncStep_bi_of provs st o hbno]
        rcases hub with h | ⟨b, hb, hib⟩
        · rw [h]
          exact Or.inr ⟨o, rfl, hmin o hbno⟩
        · rw [hb]
          exact Or.inr ⟨Nat.min b o, rfl, Nat.le_min.mpr ⟨hib, hmin o hbno⟩⟩
      · rw [asyncStep_bi_of_not provs st o hbno]
        exact hub

theorem syncLoop_reach_sync (provs : List Prov) (i : Nat) (p : Prov)
    (hp : provs[i]? = some p) (hsync : isAsync p = false)
    (hblocks : p.blocksAllOtherProviders = true) (hne : delivered p ≠ [])
    (hmin : ∀ j, j < i → ∀ q, provs[j]? = some q → q.blocksAllOtherProviders = true →
      delivered q = []) :
    ∀ (l : List Prov) (k : Nat), l = provs.drop k → k ≤ i →
    ∀ (st st' : AggState), st.blockingIndex = none →
    syncLoop l k st = .ok st' → st'.blockingIndex = some i := by
  intro l
  induction l with
  | nil =>
    intro k hdrop hki st st' _ _
    exfalso
    have h0 : (provs.drop k)[i - k]? = provs[k + (i - k)]? := List.getElem?_drop provs k (i - k)
    rw [← hdrop] at h0
    have hik : k + (i - k) = i := by omega
    rw [hik] at h0
    rw [hp] at h0
    exact absurd h0 (by simp)
  | cons phead rest ih =>
    intro k hdrop hki st st' hbi h
    have hhead : provs[k]? = some phead := by
      have h0 := List.getElem?_drop provs k 0
      rw [← hdrop] at h0
      simpa using h0.symm
    have htail : rest = provs.drop (k + 1) := by
      have h0 : (provs.drop k).drop 1 = provs.drop (k + 1) := by rw [List.drop_drop]
      rw [← hdrop] at h0
      simpa using h0
    obtain ⟨blocks, behavior⟩ := phead
    simp only [syncLoop] at h
    rw [if_neg (by rw [hbi]; simp [loopBreak])] at h
    by_cases hk : k = i
    · subst hk
      have hpe : p = ⟨blocks, behavior⟩ := by
        rw [hp] at hhead
        exact Option.some.inj hhead
      cases behavior with
      | async r =>
        rw [hpe] at hsync
        exact absurd hsync (by simp [isAsync])
      | sync r =>
        cases r with
        | error e =>
          rw [hpe] at hne
          simp [delivered] at hne
        | ok v =>
          dsimp only at h
          have hco : 0 < (v.getD []).length ∧ blocks = true := by
            constructor
            · have hx : delivered ⟨blocks, ProviderBehavior.sync (Except.ok v)⟩ ≠ [] := by
                rw [← hpe]
                exact hne
              simp only [delivered] at hx
              exact List.length_pos.mpr hx
            · have hx := hpe ▸ hblocks
              exact hx
          rw [if_pos hco] at h
          cases h
          rfl
    · have hklt : k < i := Nat.lt_of_le_of_ne hki hk
      cases behavior with
      | sync r =>
        cases r with
        | error e => exact absurd h (by simp)
        | ok v =>
          dsimp only at h
          by_cases hcond : 0 < (v.getD []).length ∧ blocks = true
          · exfalso
            have hd := hmin k hklt ⟨blocks, ProviderBehavior.sync (Except.ok v)⟩ hhead hcond.2
            simp only [delivered] at hd
            rw [hd] at hcond
            exact absurd hcond.1 (by simp)
          · rw [if_neg hcond] at h
            refine ih (k + 1) htail (by omega) _ st' ?_ h
            exact hbi
      | async r =>
        dsimp only at h
        refine ih (k + 1) htail (by omega) _ st' ?_ h
        exact hbi

theorem syncLoop_reach_async (provs : List Prov) (i : Nat) (p : Prov)
    (hp : provs[i]? = some p) (hasync : isAsync p = true)
    (hmin : ∀ j, j < i → ∀ q, provs[j]? = some q → q.blocksAllOtherProviders = true →
      delivered q = []) :
    ∀ (l : List Prov) (k : Nat), l = provs.drop k → k ≤ i →
    ∀ (st st' : AggState), st.blockingIndex = none →
    syncLoop l k st = .ok st' →
    i ∈ st'.launched ∧
      (st'.blockingIndex = none ∨ ∃ b, st'.blockingIndex = some b ∧ i ≤ b) := by
  intro l
  induction l with
  | nil =>
    intro k hdrop hki st st' _ _
    exfalso
    have h0 : (provs.drop k)[i - k]? = provs[k + (i - k)]? := List.getElem?_drop provs k (i - k)
    rw [← hdrop] at h0
    have hik : k + (i - k) = i := by omega
    rw [hik] at h0
    rw [hp] at h0
    exact absurd h0 (by simp)
  | cons phead rest ih =>
    intro k hdrop hki st st' hbi h
    have hhead : provs[k]? = some phead := by
      have h0 := List.getElem?_drop provs k 0
      rw [← hdrop] at h0
      simpa using h0.symm
    have htail : rest = provs.drop (k + 1) := by
      have h0 : (provs.drop k).drop 1 = provs.drop (k + 1) := by rw [List.drop_drop]
      rw [← hdrop] at h0
      simpa using h0
    obtain ⟨blocks, behavior⟩ := phead
    simp only [syncLoop] at h
    rw [if_neg (by rw [hbi]; simp [loopBreak])] at h
    by_cases hk : k = i
    · subst hk
      have hpe : p = ⟨blocks, behavior⟩ := by
        rw [hp] at hhead
        exact Option.some.inj hhead
      cases behavior with
      | sync r =>
        rw [hpe] at hasync
        exact absurd hasync (by simp [isAsync])
      | async r =>
        dsimp only at h
        constructor
        · obtain ⟨t, ht⟩ := syncLoop_launched_mono rest (k + 1) _ st' h
          rw [ht]
          simp
        · rcases syncLoop_bi_lb rest (k + 1) _ st' h hbi with h' | ⟨b, hb, hkb⟩
          · exact Or.inl h'
          · exact Or.inr ⟨b, hb, by omega⟩
    · have hklt : k < i := Nat.lt_of_le_of_ne hki hk
      cases behavior with
      | sync r =>
        cases r with
        | error e => exact absurd h (by simp)
        | ok v =>
          dsimp only at h
          by_cases hcond : 0 < (v.getD []).length ∧ blocks = true
          · exfalso
            have hd := hmin k hklt ⟨blocks, ProviderBehavior.sync (Except.ok v)⟩ hhead hcond.2
            simp only [delivered] at hd
            rw [hd] at hcond
            exact absurd hcond.1 (by simp)
          · rw [if_neg hcond] at h
            refine ih (k + 1) htail (by omega) _ st' ?_ h
            exact hbi
      | async r =>
        dsimp only at h
        refine ih (k + 1) htail (by omega) _ st' ?_ h
        exact hbi

theorem mergeStep_foldl_mem (bl : Suggestion → Bool) (l : List Suggestion) :
    ∀ (acc : List Str × List Suggestion) (s : Suggestion),
    s ∈ (l.foldl (mergeStep bl) acc).2 → s ∈ acc.2 ∨ s ∈ l := by
  induction l with
  | nil =>
    intro acc s h
    exact Or.inl h
  | cons x xs ih =>
    intro acc s h
    rcases ih (mergeStep bl acc x) s h with h' | h'
    · unfold mergeStep at h'
      by_cases h1 : acc.1.contains x.displayName = true
      · rw [if_pos h1] at h'
        exact Or.inl h'
      · rw [if_neg h1] at h'
        by_cases h2 : bl x = true
        · rw [if_pos h2] at h'
          exact Or.inl h'
        · rw [if_neg h2] at h'
          dsimp only at h'
          rcases List.mem_append.mp h' with h'' | h''
          · exact Or.inl h''
          · have hx : s = x := by simpa using h''
            rw [hx]
            exact Or.inr (List.mem_cons_self x xs)
    · exact Or.inr (List.mem_cons_of_mem x h')

theorem mergeFold_mem (st : AggState) (bl : Suggestion → Bool) :
    ∀ (idxs : List Nat) (acc : List Str × List Suggestion) (s : Suggestion),
    s ∈ (idxs.foldl (mergeSlot st bl) acc).2 →
    s ∈ acc.2 ∨ ∃ j, j ∈ idxs ∧ ∃ l, st.results[j]? = some (some l) ∧ s ∈ l := by
  intro idxs
  induction idxs with
  | nil =>
    intro acc s h
    exact Or.inl h
  | cons j js ih =>
    intro acc s h
    rcases ih (mergeSlot st bl acc j) s h with h' | ⟨j', hj', l, hl, hs⟩
    · unfold mergeSlot at h'
      cases hres : st.results[j]? with
      | none =>
        rw [hres] at h'
        exact Or.inl h'
      | some ol =>
        cases ol with
        | none =>
          rw [hres] at h'
          exact Or.inl h'
        | some l =>
          rw [hres] at h'
          dsimp only at h'
          by_cases hlen : l.length = 0
          · rw [if_pos hlen] at h'
            exact Or.inl h'
          · rw [if_neg hlen] at h'
            rcases mergeStep_foldl_mem bl l acc s h' with h'' | h''
            · exact Or.inl h''
            · exact Or.inr ⟨j, List.mem_cons_self j js, l, hres, h''⟩
    · exact Or.inr ⟨j', List.mem_cons_of_mem j hj', l, hl, hs⟩

theorem mergePhase_mem (st : AggState) (bl : Suggestion → Bool) :
    ∀ s ∈ (mergePhase st bl).getD [],
    ∃ j, j ∈ mergeIndices st.results.length st.blockingIndex ∧ ∃ l,
      st.results[j]? = some (some l) ∧ s ∈ l := by
  intro s hs
  unfold mergePhase at hs
  by_cases hempty : ((mergeIndices st.results.length st.blockingIndex).foldl
      (mergeSlot st bl) ([], [])).2.length = 0
  · rw [if_pos hempty] at hs
    exact absurd hs (by simp)
  · rw [if_neg hempty] at hs
    have hs' : s ∈ ((mergeIndices st.results.length st.blockingIndex).foldl
        (mergeSlot st bl) ([], [])).2 := by simpa using hs
    rcases mergeFold_mem st bl _ ([], []) s hs' with h' | h'
    · exact absurd h' (by simp)
    · exact h'

/-! ### Claim theorems for the aggregator -/

/-- C4: if the provider at priority index `i` is flagged blocking and
contributes a non-empty result, while no blocking provider at a lower
index contributes a non-empty result, then the final blocking index is
exactly `i` (the lowest index wins the cutoff among asynchronous
blocking providers) and every suggestion in the final merged result
comes from a provider at an index `≤ i` — providers beyond `i` never
contribute, even when they were already launched. -/
theorem agg_blocking_cutoff (provs : List Prov) (order : List Nat)
    (blacklist : Suggestion → Bool) (i : Nat) (p : Prov) (st1 : AggState)
    (hsync : syncLoop provs 0 (initState provs.length) = .ok st1)
    (horder : order.Perm st1.launched)
    (hp : provs[i]? = some p) (hblocks : p.blocksAllOtherProviders = true)
    (hne : delivered p ≠ [])
    (hmin : ∀ j, j < i → ∀ q, provs[j]? = some q → q.blocksAllOtherProviders = true →
      delivered q = []) :
    aggGetSuggestions provs order blacklist =
        .ok (mergePhase (order.foldl (asyncStep provs) st1) blacklist,
          order.foldl (asyncStep provs) st1)
      ∧ (order.foldl (asyncStep provs) st1).blockingIndex = some i
      ∧ ∀ s ∈ (mergePhase (order.foldl (asyncStep provs) st1) blacklist).getD [],
          ∃ j, j ≤ i ∧ ∃ q, provs[j]? = some q ∧ s ∈ delivered q := by
  have hminB : ∀ j, blockingNonemptyAsync provs j → i ≤ j := by
    intro j hb
    obtain ⟨q, hq, _, hqb, hqne⟩ := hb
    by_contra hji
    exact hqne (hmin j (by omega) q hq hqb)
  have hbi2 : (order.foldl (asyncStep provs) st1).blockingIndex = some i := by
    cases ha : isAsync p with
    | false =>
      have h1 := syncLoop_reach_sync provs i p hp ha hblocks hne hmin provs 0
        (List.drop_zero provs).symm (Nat.zero_le i) (initState provs.length) st1 rfl hsync
      exact asyncFold_bi_keep provs i order st1 h1 hminB
    | true =>
      obtain ⟨hlaunch, hub⟩ := syncLoop_reach_async provs i p hp ha hmin provs 0
        (List.drop_zero provs).symm (Nat.zero_le i) (initState provs.length) st1 rfl hsync
      exact asyncFold_bi_reach provs i order st1 hub (horder.mem_iff.mpr hlaunch)
        ⟨p, hp, ha, hblocks, hne⟩ hminB
  refine ⟨?_, hbi2, ?_⟩
  · unfold aggGetSuggestions
    rw [hsync]
    rfl
  · intro s hs
    obtain ⟨j, hj, l, hl, hsl⟩ := mergePhase_mem _ blacklist s hs
    have hji : j ≤ i := by
      rw [hbi2] at hj
      simp only [mergeIndices, Option.getD_some, List.mem_range, Nat.lt_min] at hj
      omega
    have hP : ∀ (j' : Nat) (q : Prov), provs[j']? = some q →
        ∃ q', provs[j']? = some q' ∧ delivered q = delivered q' := by
      intro j' q hq
      exact ⟨q, hq, rfl⟩
    have hinit : ∀ (j' : Nat) (l' : List Suggestion),
        (initState provs.length).results[j']? = some (some l') →
        ∃ q', provs[j']? = some q' ∧ l' = delivered q' := by
      intro j' l' hj'
      rw [show (initState provs.length).results = List.replicate provs.length none from rfl,
        List.getElem?_replicate] at hj'
      by_cases hc : j' < provs.length
      · rw [if_pos hc] at hj'
        exact absurd hj' (by simp)
      · rw [if_neg hc] at hj'
        exact absurd hj' (by simp)
    have hst1 : ∀ (j' : Nat) (l' : List Suggestion), st1.results[j']? = some (some l') →
        ∃ q', provs[j']? = some q' ∧ l' = delivered q' :=
      syncLoop_results_inv provs
        (fun j'' l'' => ∃ q', provs[j'']? = some q' ∧ l'' = delivered q') hP provs 0
        (List.drop_zero provs).symm (initState provs.length) st1 hsync hinit
    have hinv : ∀ j' l', (order.foldl (asyncStep provs) st1).results[j']? = some (some l') →
        ∃ q, provs[j']? = some q ∧ l' = delivered q :=
      asyncFold_results_inv provs
        (fun j'' l'' => ∃ q', provs[j'']? = some q' ∧ l'' = delivered q') hP order st1 hst1
    obtain ⟨q, hq, hlq⟩ := hinv j l hl
    exact ⟨j, hji, q, hq, hlq ▸ hsl⟩

/-- Witness for C4: a non-blocking synchronous provider, an asynchronous
blocking provider at index 1, and a further synchronous provider at
index 2 whose suggestion is discarded from the merge. -/
theorem agg_blocking_cutoff_witness :
    aggGetSuggestions
        [{ blocksAllOtherProviders := false,
           behavior := .sync (.ok (some [Suggestion.fromString ['a']])) },
         { blocksAllOtherProviders := true,
           behavior := .async (.ok (some [Suggestion.fromString ['b']])) },
         { blocksAllOtherProviders := false,
           behavior := .sync (.ok (some [Suggestion.fromString ['c']])) }] [1]
        (fun _ => false) =
        .ok (mergePhase ([1].foldl
            (asyncStep
              [{ blocksAllOtherProviders := false,
                 behavior := .sync (.ok (some [Suggestion.fromString ['a']])) },
               { blocksAllOtherProviders := true,
                 behavior := .async (.ok (some [Suggestion.fromString ['b']])) },
               { blocksAllOtherProviders := false,
                 behavior := .sync (.ok (some [Suggestion.fromString ['c']])) }])
            { results := [some [Suggestion.fromString ['a']], none,
                some [Suggestion.fromString ['c']]],
              blockingIndex := none, launched := [1] }) (fun _ => false),
          [1].foldl
            (asyncStep
              [{ blocksAllOtherProviders := false,
                 behavior := .sync (.ok (some [Suggestion.fromString ['a']])) },
               { blocksAllOtherProviders := true,
                 behavior := .async (.ok (some [Suggestion.fromString ['b']])) },
               { blocksAllOtherProviders := false,
                 behavior := .sync (.ok (some [Suggestion.fromString ['c']])) }])
            { results := [some [Suggestion.fromString ['a']], none,
                some [Suggestion.fromString ['c']]],
              blockingIndex := none, launched := [1] })
      ∧ ([1].foldl
          (asyncStep
            [{ blocksAllOtherProviders := false,
               behavior := .sync (.ok (some [Suggestion.fromString ['a']])) },
             { blocksAllOtherProviders := true,
               behavior := .async (.ok (some [Suggestion.fromString ['b']])) },
             { blocksAllOtherProviders := false,
               behavior := .sync (.ok (some [Suggestion.fromString ['c']])) }])
          { results := [some [Suggestion.fromString ['a']], none,
              some [Suggestion.fromString ['c']]],
            blockingIndex := none, launched := [1] }).blockingIndex = some 1
      ∧ ∀ s ∈ (mergePhase ([1].foldl
            (asyncStep
              [{ blocksAllOtherProviders := false,
                 behavior := .sync (.ok (some [Suggestion.fromString ['a']])) },
               { blocksAllOtherProviders := true,
                 behavior := .async (.ok (some [Suggestion.fromString ['b']])) },
               { blocksAllOtherProviders := false,
                 behavior := .sync (.ok (some [Suggestion.fromString ['c']])) }])
            { results := [some [Suggestion.fromString ['a']], none,
                some [Suggestion.fromString ['c']]],
              blockingIndex := none, launched := [1] }) (fun _ => false)).getD [],
          ∃ j, j ≤ 1 ∧ ∃ q,
            [{ blocksAllOtherProviders := false,
               behavior := .sync (.ok (some [Suggestion.fromString ['a']])) },
             { blocksAllOtherProviders := true,
               behavior := .async (.ok (some [Suggestion.fromString ['b']])) },
             { blocksAllOtherProviders := false,
               behavior := .sync (.ok (some [Suggestion.fromString ['c']])) }][j]? = some q
              ∧ s ∈ delivered q :=
  agg_blocking_cutoff _ _ _ 1 _
    { results := [some [Suggestion.fromString ['a']], none,
        some [Suggestion.fromString ['c']]],
      blockingIndex := none, launched := [1] }
    rfl (List.Perm.refl _) rfl rfl (by simp [delivered])
    (by
      intro j hj q hq hqb
      have hj0 : j = 0 := by omega
      subst hj0
      have hq' := Option.some.inj hq
      rw [← hq'] at hqb
      exact absurd hqb (by simp))

/-- C5 counterexample: a provider that throws synchronously aborts the
whole aggregate query (the aggregate rejects instead of completing
normally with the remaining provider's suggestion), contradicting the
claim that a synchronous throw is contained per provider. -/
theorem agg_syncThrow_aborts :
    aggGetSuggestions
        [{ blocksAllOtherProviders := false, behavior := .sync (.error ()) },
         { blocksAllOtherProviders := false,
           behavior := .sync (.ok (some [Suggestion.fromString ['x']])) }] []
        (fun _ => false)
      = .error () := rfl

theorem syncLoop_set_asyncError (p : Prov) (hrej : p.behavior = .async (.error ())) :
    ∀ (l : List Prov) (m : Nat), l[m]? = some p →
    ∀ (k : Nat) (st : AggState),
    syncLoop (l.set m { p with behavior := .async (.ok (some [])) }) k st
      = syncLoop l k st := by
  intro l
  induction l with
  | nil =>
    intro m hm _ _
    exact absurd hm (by simp)
  | cons q rest ih =>
    intro m hm k st
    cases m with
    | zero =>
      have hq : q = p := by simpa using hm
      subst hq
      obtain ⟨blocks, behavior⟩ := q
      dsimp only at hrej
      subst hrej
      simp only [List.set]
      simp only [syncLoop]
    | succ m' =>
      have hm' : rest[m']? = some p := by simpa using hm
      simp only [List.set]
      simp only [syncLoop]
      by_cases hbk : loopBreak st.blockingIndex k = true
      · rw [if_pos hbk, if_pos hbk]
      · rw [if_neg hbk, if_neg hbk]
        obtain ⟨qb, qbeh⟩ := q
        cases qbeh with
        | sync r =>
          cases r with
          | error e => rfl
          | ok v =>
            dsimp only
            by_cases hcond : 0 < (v.getD []).length ∧ qb = true
            · rw [if_pos hcond, if_pos hcond]
            · rw [if_neg hcond, if_neg hcond]
              exact ih m' hm' (k + 1) _
        | async r =>
          dsimp only
          exact ih m' hm' (k + 1) _

theorem asyncStep_set_asyncError (provs : List Prov) (j : Nat) (p : Prov)
    (hp : provs[j]? = some p) (hrej : p.behavior = .async (.error ())) :
    asyncStep (provs.set j { p with behavior := .async (.ok (some [])) })
      = asyncStep provs := by
  funext st k
  by_cases hkj : j = k
  · subst hkj
    have hlt : j < provs.length := by
      rcases List.getElem?_eq_some.mp hp with ⟨h, _⟩
      exact h
    unfold asyncStep
    rw [List.getElem?_set_self (by simpa using hlt), hp]
    obtain ⟨blocks, behavior⟩ := p
    dsimp only at hrej
    subst hrej
    rfl
  · unfold asyncStep
    rw [List.getElem?_set_ne hkj]

/-- C5 (amended): a provider whose promise rejects is contained per
provider — the aggregate behaves exactly as if that provider had
resolved with the empty suggestion list, completing with the remaining
providers' results; a synchronous throw, by contrast, aborts the
aggregate (see the counterexample). -/
theorem agg_async_rejection_contained (provs : List Prov) (order : List Nat)
    (blacklist : Suggestion → Bool) (j : Nat) (p : Prov)
    (hp : provs[j]? = some p) (hrej : p.behavior = .async (.error ())) :
    aggGetSuggestions provs order blacklist
      = aggGetSuggestions (provs.set j { p with behavior := .async (.ok (some [])) })
          order blacklist := by
  unfold aggGetSuggestions
  rw [List.length_set, syncLoop_set_asyncError p hrej provs j hp 0 _,
    asyncStep_set_asyncError provs j p hp hrej]

/-- Witness for C5's amended theorem: a rejecting async provider next to
a successful synchronous provider. -/
theorem agg_async_rejection_contained_witness :
    aggGetSuggestions
        [{ blocksAllOtherProviders := false, behavior := .async (.error ()) },
         { blocksAllOtherProviders := false,
           behavior := .sync (.ok (some [Suggestion.fromString ['x']])) }] [0]
        (fun _ => false)
      = aggGetSuggestions
          [{ blocksAllOtherProviders := false, behavior := .async (.ok (some [])) },
           { blocksAllOtherProviders := false,
             behavior := .sync (.ok (some [Suggestion.fromString ['x']])) }] [0]
          (fun _ => false) :=
  agg_async_rejection_contained _ [0] (fun _ => false) 0 _ rfl rfl

/-! ## LLM provider (`src/provider/llm_provider.ts` and the pending-slot
variant of the provider, `src/unnamed/part_002`)

Temperatures are modelled as rationals; the JavaScript `NaN`/non-number
cases of `resolveTemperature` are modelled as `none`. -/

/-- `CACHE_SEPARATOR`, the record-separator sentinel `"␞"`. -/
def CACHE_SEPARATOR : Char := Char.ofNat 0x241E

/-- Model of `Number.prototype.toFixed(3)` for the non-negative
temperatures produced by `resolveTemperature`: round to the nearest
thousandth (ties up) and print with exactly three decimals. -/
def toFixed3 (q : ℚ) : Str :=
  let n : Nat := (⌊q * 1000 + 1/2⌋).toNat
  Nat.toDigits 10 (n / 1000) ++ '.' ::
    (List.replicate (3 - (Nat.toDigits 10 (n % 1000)).length) '0' ++
      Nat.toDigits 10 (n % 1000))

/-- `resolveTemperature` (part_002 lines 233–239): non-numbers and `NaN`
(modelled `none`) fall back to the default `0.7`; numbers are clamped to
`[0, 2]`. -/
def resolveTemperature (value : Option ℚ) : ℚ :=
  match value with
  | none => 7/10
  | some x => max 0 (min 2 x)

/-- `createCacheKey` (part_002 lines 101–110): the clipped context, the
separator, the resolved model (`undefined` rendered as `""`) and the
temperature rendered via `toFixed(3)`, joined with the sentinel. -/
def createCacheKey (clippedContext separator : Str) (model : Option Str)
    (temperature : ℚ) : Str :=
  clippedContext ++ CACHE_SEPARATOR ::
    (separator ++ CACHE_SEPARATOR ::
      (model.getD [] ++ CACHE_SEPARATOR :: toFixed3 temperature))

/-- Splitting at a sentinel is unambiguous when neither left part
contains the sentinel. -/
theorem append_sentinel_inj : ∀ (a a' rest rest' : Str),
    CACHE_SEPARATOR ∉ a → CACHE_SEPARATOR ∉ a' →
    a ++ CACHE_SEPARATOR :: rest = a' ++ CACHE_SEPARATOR :: rest' →
    a = a' ∧ rest = rest' := by
  intro a
  induction a with
  | nil =>
    intro a' rest rest' _ ha' h
    cases a' with
    | nil => simpa using h
    | cons x xs =>
      exfalso
      simp only [List.nil_append, List.cons_append, List.cons.injEq] at h
      apply ha'
      rw [h.1]
      exact List.mem_cons_self x xs
  | cons y ys ih =>
    intro a' rest rest' ha ha' h
    cases a' with
    | nil =>
      exfalso
      simp only [List.nil_append, List.cons_append, List.cons.injEq] at h
      apply ha
      rw [← h.1]
      exact List.mem_cons_self y ys
    | cons x xs =>
      simp only [List.cons_append, List.cons.injEq] at h
      have hys : CACHE_SEPARATOR ∉ ys := fun hm => ha (List.mem_cons_of_mem y hm)
      have hxs : CACHE_SEPARATOR ∉ xs := fun hm => ha' (List.mem_cons_of_mem x hm)
      obtain ⟨h1, h2⟩ := ih xs rest rest' hys hxs h.2
      exact ⟨by rw [h.1, h1], h2⟩

/-- C7 counterexample: the claim "two requests agree on the key exactly
when they agree on all four components" fails.  First: a document text
containing the sentinel collides with a different context/separator/model
triple.  Second: the temperatures `0.7` and `0.7001` differ but render
identically under `toFixed(3)`, so their keys agree. -/
theorem createCacheKey_claim_false :
    (createCacheKey ['a', CACHE_SEPARATOR, 'b'] [] none (7/10)
        = createCacheKey ['a'] ['b'] (some [CACHE_SEPARATOR]) (7/10)
      ∧ (['a', CACHE_SEPARATOR, 'b'] : Str) ≠ ['a'])
    ∧ (createCacheKey ['a'] [] none (7/10) = createCacheKey ['a'] [] none (7001/10000)
      ∧ (7/10 : ℚ) ≠ 7001/10000) := by
  refine ⟨⟨rfl, by simp⟩, ⟨?_, by norm_num⟩⟩
  unfold createCacheKey
  have hfix : toFixed3 (7/10) = toFixed3 (7001/10000) := by
    unfold toFixed3
    have h1 : ⌊((7:ℚ)/10 * 1000 + 1/2)⌋ = 700 := by
      rw [Int.floor_eq_iff]
      constructor <;> norm_num
    have h2 : ⌊((7001:ℚ)/10000 * 1000 + 1/2)⌋ = 700 := by
      rw [Int.floor_eq_iff]
      constructor <;> norm_num
    rw [h1, h2]
  rw [hfix]

/-- C7 (amended): provided no joined field contains the sentinel
character and the resolved model is never the empty string (which
`resolveModel` guarantees: a model is a trimmed non-blank configured
name, the OpenAI default, or `undefined`), two requests agree on the
cache key exactly when they agree on the clipped context, the separator,
the resolved model, and the `toFixed(3)` rendering of the resolved
temperature. -/
theorem createCacheKey_inj (c s : Str) (m : Option Str) (t : ℚ)
    (c' s' : Str) (m' : Option Str) (t' : ℚ)
    (hc : CACHE_SEPARATOR ∉ c) (hc' : CACHE_SEPARATOR ∉ c')
    (hs : CACHE_SEPARATOR ∉ s) (hs' : CACHE_SEPARATOR ∉ s')
    (hm : CACHE_SEPARATOR ∉ m.getD []) (hm' : CACHE_SEPARATOR ∉ m'.getD [])
    (hmne : m ≠ some []) (hmne' : m' ≠ some []) :
    createCacheKey c s m t = createCacheKey c' s' m' t' ↔
      (c = c' ∧ s = s' ∧ m = m' ∧ toFixed3 t = toFixed3 t') := by
  constructor
  · intro h
    unfold createCacheKey at h
    obtain ⟨h1, h2⟩ := append_sentinel_inj c c' _ _ hc hc' h
    obtain ⟨h3, h4⟩ := append_sentinel_inj s s' _ _ hs hs' h2
    obtain ⟨h5, h6⟩ := append_sentinel_inj _ _ _ _ hm hm' h4
    refine ⟨h1, h3, ?_, h6⟩
    match m, m', h5 with
    | none, none, _ => rfl
    | none, some b, h5 =>
      exfalso
      apply hmne'
      rw [show b = [] from by simpa using h5.symm]
    | some a, none, h5 =>
      exfalso
      apply hmne
      rw [show a = [] from by simpa using h5]
    | some a, some b, h5 => rw [show a = b from by simpa using h5]
  · intro ⟨h1, h2, h3, h4⟩
    unfold createCacheKey
    rw [h1, h2, h3, h4]

/-- Witness for C7's amended theorem at concrete sentinel-free inputs. -/
theorem createCacheKey_inj_witness :
    createCacheKey ['a', 'b'] ['c'] (some ['m']) (7/10)
        = createCacheKey ['a', 'b'] ['c'] (some ['m']) (7/10) ↔
      ((['a', 'b'] : Str) = ['a', 'b'] ∧ (['c'] : Str) = ['c'] ∧
        (some ['m'] : Option Str) = some ['m'] ∧
        toFixed3 (7/10) = toFixed3 (7/10)) :=
  createCacheKey_inj ['a', 'b'] ['c'] (some ['m']) (7/10) ['a', 'b'] ['c'] (some ['m'])
    (7/10) (by decide) (by decide) (by decide) (by decide) (by decide) (by decide)
    (by simp) (by simp)

/-! ### LLM request lifecycle (part_002)

The provider's mutable fields are modelled as an explicit state, and the
two suspension-point-free code blocks of the source are the two
transitions: `llmCall` is the synchronous prefix of `getSuggestions`
(which runs to completion before any other JavaScript executes), and
`llmSettle` is the resumption of `executeRequest` when the network call
for a key settles.  Promises are identified by allocation numbers so
that coalesced callers can be seen to share one promise; the dispatched
network requests are recorded in the ghost field `networkCalls` in
dispatch order.  The `requestCache` of prepared bodies only affects
which prepared body is reused, never whether a call is dispatched, and
is tracked by its keys. -/

/-- What a call to `getSuggestions` returns, as seen by the caller:
a cached value, the existing in-flight promise (coalescing), an
immediately-resolved empty list after parking into the pending slot, or
a freshly dispatched request's promise. -/
inductive CallOutcome where
  | cachedHit (v : List Suggestion)
  | coalesced (promiseId : Nat)
  | parked
  | dispatched (promiseId : Nat)
deriving DecidableEq, Repr

/-- The provider's fields: `cacheKey`/`cacheValue` (last completed
response), `inflightKey`/`inflightPromise` (modelled by an id),
`pendingKey` (the single pending slot; `pendingArgs` is determined by
it), and the keys of the bounded `requestCache`.  `networkCalls` is the
ghost list of dispatched request keys. -/
structure LlmState where
  cacheKey : Option Str
  cacheValue : Option (List Suggestion)
  inflightKey : Option Str
  inflightId : Option Nat
  pendingKey : Option Str
  requestCacheKeys : List Str
  networkCalls : List Str
  nextId : Nat
deriving DecidableEq, Repr

/-- The provider's initial state (all fields `null`/empty). -/
def llmInit : LlmState :=
  { cacheKey := none, cacheValue := none, inflightKey := none, inflightId := none,
    pendingKey := none, requestCacheKeys := [], networkCalls := [], nextId := 0 }

/-- The `while (this.requestCache.size > 20)` eviction loop of
`storePreparedRequest`, dropping oldest entries (fuelled structurally;
the fuel is the list length, which bounds the iterations). -/
def trimRequestCache : Nat → List Str → List Str
  | 0, keys => keys
  | fuel + 1, keys => if keys.length > 20 then trimRequestCache fuel (keys.drop 1) else keys

/-- `storePreparedRequest`: `Map.set` keeps an existing key's position
and appends a new key, then the eviction loop bounds the size. -/
def storeRequestKey (keys : List Str) (k : Str) : List Str :=
  let keys' := if keys.contains k then keys else keys ++ [k]
  trimRequestCache keys'.length keys'

/-- The start of `executeRequest` (part_002 lines 430–440):
`fetchSuggestions` is invoked — which synchronously issues the network
request before its first `await` — and the in-flight key and promise are
recorded.  Returns the new state and the promise id. -/
def executeRequestStart (st : LlmState) (k : Str) : LlmState × Nat :=
  ({ st with networkCalls := st.networkCalls ++ [k],
             inflightKey := some k,
             inflightId := some st.nextId,
             nextId := st.nextId + 1 }, st.nextId)

/-- The synchronous body of `getSuggestions` (part_002 lines 47–95) for
an enabled provider, given the computed cache key `k`: a completed-cache
hit returns the cached suggestions; a same-key in-flight call returns
the in-flight promise; a different-key in-flight call overwrites the
pending slot and resolves with `[]`; otherwise the request is executed
immediately. -/
def llmCall (st : LlmState) (k : Str) : LlmState × CallOutcome :=
  match (if st.cacheKey == some k then st.cacheValue else none) with
  | some v => (st, .cachedHit v)
  | none =>
    match st.inflightId with
    | some pid =>
        if st.inflightKey == some k then (st, .coalesced pid)
        else ({ st with pendingKey := some k }, .parked)
    | none =>
        let r := executeRequestStart st k
        (r.1, .dispatched r.2)

/-- `processPending` (part_002 lines 463–476): nothing happens while a
request is in flight or when the pending slot is empty; otherwise the
slot is cleared and its request executed. -/
def processPending (st : LlmState) : LlmState :=
  if st.inflightId.isSome then st
  else
    match st.pendingKey with
    | none => st
    | some pk => (executeRequestStart { st with pendingKey := none } pk).1

/-- The resumption of `executeRequest` when the network call for key `k`
settles with suggestions `v` (part_002 lines 442–460): if the in-flight
key is still `k`, the response is cached and the prepared request
stored; the `finally` block then clears the in-flight marker and
dispatches the pending request, if any. -/
def llmSettle (st : LlmState) (k : Str) (v : List Suggestion) : LlmState :=
  let st1 :=
    if st.inflightKey == some k then
      { st with cacheKey := some k, cacheValue := some v,
                requestCacheKeys := storeRequestKey st.requestCacheKeys k }
    else st
  if st1.inflightKey == some k then
    processPending { st1 with inflightKey := none, inflightId := none }
  else st1

/-- C3: two `getSuggestions` calls with the identical computed key while
the first is unresolved make exactly one network call; the second caller
is handed the very promise the first call created (same promise id,
hence the same resolved suggestion list for both callers), and settling
caches the response without any further network call. -/
theorem llm_coalescing (k : Str) (v : List Suggestion) :
    (llmCall (llmCall llmInit k).1 k).1.networkCalls = [k]
      ∧ (llmCall llmInit k).2 = .dispatched 0
      ∧ (llmCall (llmCall llmInit k).1 k).2 = .coalesced 0
      ∧ (llmSettle (llmCall (llmCall llmInit k).1 k).1 k v).networkCalls = [k]
      ∧ (llmSettle (llmCall (llmCall llmInit k).1 k).1 k v).cacheKey = some k
      ∧ (llmSettle (llmCall (llmCall llmInit k).1 k).1 k v).cacheValue = some v := by
  simp [llmInit, llmCall, llmSettle, executeRequestStart, processPending, storeRequestKey,
    trimRequestCache]

/-- C2: with a request for key `A` in flight, calls for keys `B` then
`C` (both distinct from `A`) are parked in the single pending slot,
`C`'s parking overwriting `B`'s; when `A` settles, exactly the pending
`C` is dispatched.  In total exactly two network calls occur, for `A`
and for `C`, and `B`'s request is never dispatched. -/
theorem llm_pending_overwrite (a b c : Str) (v : List Suggestion)
    (hba : b ≠ a) (hca : c ≠ a) :
    (llmCall (llmCall llmInit a).1 b).2 = .parked
      ∧ (llmCall (llmCall llmInit a).1 b).1.pendingKey = some b
      ∧ (llmCall (llmCall (llmCall llmInit a).1 b).1 c).2 = .parked
      ∧ (llmCall (llmCall (llmCall llmInit a).1 b).1 c).1.pendingKey = some c
      ∧ (llmSettle (llmCall (llmCall (llmCall llmInit a).1 b).1 c).1 a v).networkCalls
          = [a, c]
      ∧ (llmSettle (llmCall (llmCall (llmCall llmInit a).1 b).1 c).1 a v).pendingKey
          = none := by
  have hba' : (b == a) = false := by simp [hba]
  have hca' : (c == a) = false := by simp [hca]
  have hab' : (a == b) = false := by
    simp only [beq_eq_false_iff_ne, ne_eq]
    intro h
    exact hba h.symm
  have hac' : (a == c) = false := by
    simp only [beq_eq_false_iff_ne, ne_eq]
    intro h
    exact hca h.symm
  simp [llmInit, llmCall, llmSettle, executeRequestStart, processPending, storeRequestKey,
    trimRequestCache, hba', hca', hab', hac']

/-- Witness for C2 at the concrete keys `"a"`, `"b"`, `"c"`. -/
theorem llm_pending_overwrite_witness :
    (llmCall (llmCall llmInit ['a']).1 ['b']).2 = .parked
      ∧ (llmCall (llmCall llmInit ['a']).1 ['b']).1.pendingKey = some ['b']
      ∧ (llmCall (llmCall (llmCall llmInit ['a']).1 ['b']).1 ['c']).2 = .parked
      ∧ (llmCall (llmCall (llmCall llmInit ['a']).1 ['b']).1 ['c']).1.pendingKey
          = some ['c']
      ∧ (llmSettle (llmCall (llmCall (llmCall llmInit ['a']).1 ['b']).1 ['c']).1 ['a']
          []).networkCalls = [['a'], ['c']]
      ∧ (llmSettle (llmCall (llmCall (llmCall llmInit ['a']).1 ['b']).1 ['c']).1 ['a']
          []).pendingKey = none :=
  llm_pending_overwrite ['a'] ['b'] ['c'] [] (by decide) (by decide)

/-! ### LLM response handling (`fetchSuggestions`, llm_provider.ts lines 64–111)

JavaScript values reachable from a parsed response body are modelled by
`Json`.  The host primitive `JSON.parse` is a parameter
`jsParse : Str → Option Json` (`none` models a parse exception); every
`try`/`catch` of the source appears as explicit `Except`/`Option`
plumbing in the model. -/

/-- JSON-ish JavaScript values. -/
inductive Json where
  | null
  | jbool (b : Bool)
  | jnum (q : ℚ)
  | jstr (s : Str)
  | jarr (elems : List Json)
  | jobj (fields : List (Str × Json))

/-- Is the value JavaScript `null`? -/
def Json.isNull : Json → Bool
  | .null => true
  | _ => false

/-- Truthy with `typeof === "object"`: objects and arrays. -/
def Json.isObjectLike : Json → Bool
  | .jobj _ => true
  | .jarr _ => true
  | _ => false

/-- JavaScript property read `value[key]` (objects only; `undefined`
elsewhere). -/
def jsGetField (j : Json) (key : Str) : Option Json :=
  match j with
  | .jobj fields => (fields.find? (fun kv => kv.1 == key)).map (·.2)
  | _ => none

/-- `.filter((entry): entry is string => typeof entry === "string")`. -/
def stringElems (l : List Json) : List Str :=
  l.filterMap (fun e =>
    match e with
    | .jstr s => some s
    | _ => none)

/-- `extractWords` (llm_provider.ts lines 170–191): a string array, or
the first of the list-valued fields `suggestions`, `words`,
`completions`, `data` of an object. -/
def extractWords (payload : Json) : List Str :=
  match payload with
  | .jarr elems => stringElems elems
  | .jobj fields =>
      match jsGetField (.jobj fields) "suggestions".toList with
      | some (.jarr es) => stringElems es
      | _ =>
        match jsGetField (.jobj fields) "words".toList with
        | some (.jarr es) => stringElems es
        | _ =>
          match jsGetField (.jobj fields) "completions".toList with
          | some (.jarr es) => stringElems es
          | _ =>
            match jsGetField (.jobj fields) "data".toList with
            | some (.jarr es) => stringElems es
            | _ => []
  | _ => []

/-- JavaScript whitespace as used by `trim` and `\s`. -/
def isJsWhitespace (c : Char) : Bool :=
  c == ' ' || c == '\t' || c == '\n' || c == '\r'

/-- `String.prototype.trim`. -/
def trimStr (s : Str) : Str :=
  ((s.dropWhile isJsWhitespace).reverse.dropWhile isJsWhitespace).reverse

/-- The text after the first triple-backtick fence, if any. -/
def afterFirstFence : Str → Option Str
  | [] => none
  | c :: rest =>
      if ('`' :: '`' :: '`' :: []).isPrefixOf (c :: rest) then some ((c :: rest).drop 3)
      else afterFirstFence rest

/-- The text before the next triple-backtick fence, if such a fence
occurs. -/
def beforeFence : Str → Option Str
  | [] => none
  | c :: rest =>
      if ('`' :: '`' :: '`' :: []).isPrefixOf (c :: rest) then some []
      else (beforeFence rest).map (c :: ·)

/-- The capture of ``/```(?:json)?\s*([\s\S]*?)```/i`` on the trimmed
content: after the first fence, greedily consume an optional
case-insensitive `json` tag and whitespace, then capture lazily up to
the closing fence (backtracking over the `json` tag when no closing
fence would otherwise be found). -/
def codeBlockMatch (s : Str) : Option Str :=
  match afterFirstFence s with
  | none => none
  | some afterOpen =>
      if lowerStr (afterOpen.take 4) == "json".toList then
        match beforeFence ((afterOpen.drop 4).dropWhile isJsWhitespace) with
        | some cap => some cap
        | none => beforeFence (afterOpen.dropWhile isJsWhitespace)
      else beforeFence (afterOpen.dropWhile isJsWhitespace)

/-- The run of further `'\n'` characters consumed by `\n+`. -/
def dropMoreNewlines : Str → Str
  | '\n' :: rest => dropMoreNewlines rest
  | s => s

/-- `split(/\r?\n+/)` (fuelled structurally; the fuel is the string
length plus one, which bounds the recursion). -/
def splitNewlinesAux : Nat → Str → Str → List Str
  | 0, s, acc => [acc.reverse ++ s]
  | _ + 1, [], acc => [acc.reverse]
  | fuel + 1, ch :: rest, acc =>
      if ch = '\n' then acc.reverse :: splitNewlinesAux fuel (dropMoreNewlines rest) []
      else if ch = '\r' ∧ rest.head? = some '\n' then
        acc.reverse :: splitNewlinesAux fuel (dropMoreNewlines (rest.drop 1)) []
      else splitNewlinesAux fuel rest (ch :: acc)

/-- `split(/\r?\n+/)`. -/
def splitNewlines (s : Str) : List Str :=
  splitNewlinesAux (s.length + 1) s []

/-- `line.replace(/^[\-\d\.]*(?:\)|\.|:)?\s*/, "")`: strip an
enumeration prefix of dashes, digits and dots, an optional closing
punctuation mark, and whitespace. -/
def stripListPrefix (line : Str) : Str :=
  let r1 := line.dropWhile (fun ch => ch == '-' || ch.isDigit || ch == '.')
  let r2 :=
    match r1 with
    | ch :: t => if ch = ')' ∨ ch = '.' ∨ ch = ':' then t else r1
    | [] => r1
  r2.dropWhile isJsWhitespace

/-- `parseOpenAIContent` (llm_provider.ts lines 225–241): unwrap an
optional fenced code block, parse as a JSON string array if possible,
otherwise split into lines and strip enumeration prefixes. -/
def parseOpenAIContent (jsParse : Str → Option Json) (raw : Str) : List Str :=
  let trimmed := trimStr raw
  if trimmed = [] then []
  else
    let content :=
      match codeBlockMatch trimmed with
      | some cap => trimStr cap
      | none => trimmed
    match jsParse content with
    | some (.jarr es) => stringElems es
    | _ =>
        ((splitNewlines content).map (fun line => trimStr (stripListPrefix line))).filter
          (fun line => 0 < line.length)

/-- The per-choice extraction of `extractOpenAIWords`: a string
`message.content` is parsed (and `text` skipped); otherwise a string
`text` is parsed. -/
def choiceWords (jsParse : Str → Option Json) (choice : Json) : List Str :=
  if choice.isObjectLike = false then []
  else
    let fromText : List Str :=
      match jsGetField choice "text".toList with
      | some (.jstr t) => parseOpenAIContent jsParse t
      | _ => []
    match jsGetField choice "message".toList with
    | some msg =>
        if msg.isObjectLike then
          match jsGetField msg "content".toList with
          | some (.jstr content) => parseOpenAIContent jsParse content
          | _ => fromText
        else fromText
    | none => fromText

/-- `extractOpenAIWords` (llm_provider.ts lines 193–223): the
concatenated per-choice words of an OpenAI-style envelope. -/
def extractOpenAIWords (jsParse : Str → Option Json) (payload : Json) : List Str :=
  if payload.isObjectLike = false then []
  else
    match jsGetField payload "choices".toList with
    | some (.jarr choices) => choices.flatMap (choiceWords jsParse)
    | _ => []

/-- `safeParseJson` (llm_provider.ts lines 158–168): empty/absent text
and parse exceptions give `null`. -/
def safeParseJson (jsParse : Str → Option Json) (text : Option Str) : Json :=
  match text with
  | none => Json.null
  | some s => if s = [] then Json.null else (jsParse s).getD Json.null

/-- A response field that may be absent, a plain value, or a promise:
`resolvePossiblePromise` awaits promises and converts rejections to
`undefined` (`none`). -/
def resolvePossiblePromise : Option (Except Unit α) → Option α
  | none => none
  | some (.ok v) => some v
  | some (.error _) => none

/-- The slice of Obsidian's `RequestUrlResponse` consumed by
`fetchSuggestions`: the HTTP status and the `json`/`text` fields, each
possibly absent, a value, or a promise that may reject. -/
structure RUResponse where
  status : Int
  json : Option (Except Unit Json)
  text : Option (Except Unit Str)

/-- `resolvePayload` (llm_provider.ts lines 251–268): prefer the
resolved `json` field (re-parsing it when it is a string), fall back to
parsing the `text` field, and produce `null` when everything fails. -/
def resolvePayload (jsParse : Str → Option Json) (r : RUResponse) : Json :=
  let fromText : Json :=
    match resolvePossiblePromise r.text with
    | some t => safeParseJson jsParse (some t)
    | none => Json.null
  match resolvePossiblePromise r.json with
  | some v =>
      if v.isNull then fromText
      else
        match v with
        | .jstr s =>
            let parsed := safeParseJson jsParse (some s)
            if parsed.isNull then fromText else parsed
        | _ => v
  | none => fromText

/-- `fetchSuggestions` (llm_provider.ts lines 64–111) with its exception
behaviour explicit: the network outcome `net` is the `requestUrl` call
(`.error` = transport failure/timeout thrown by the host), and the outer
`try`/`catch` turns every thrown error into an empty list.  The body
never throws after the response arrives: payload resolution and word
extraction absorb their failures internally. -/
def fetchSuggestionsE (jsParse : Str → Option Json) (net : Except Unit RUResponse) :
    Except Unit (List Suggestion) :=
  let body : Except Unit (List Suggestion) := do
    let response ← net
    let payload := resolvePayload jsParse response
    if response.status < 200 ∨ response.status ≥ 300 then
      pure []
    else
      let words := extractWords payload
      let words := if words = [] then extractOpenAIWords jsParse payload else words
      pure (words.map Suggestion.fromString)
  match body with
  | .ok v => .ok v
  | .error _ => .ok []

/-- C6: `fetchSuggestions` never throws or rejects outward — for every
parser behaviour and network outcome the model yields `.ok`; a
network/transport error yields `[]`; every non-2xx status (HTTP 500 in
particular) yields `[]` regardless of the payload; and an unparsable
payload (the parser throwing on every input) yields `[]` even on a 2xx
status. -/
theorem llm_fetch_never_throws :
    (∀ (jsParse : Str → Option Json) (net : Except Unit RUResponse),
        (fetchSuggestionsE jsParse net).isOk = true)
    ∧ (∀ (jsParse : Str → Option Json), fetchSuggestionsE jsParse (.error ()) = .ok [])
    ∧ (∀ (jsParse : Str → Option Json) (r : RUResponse),
        r.status < 200 ∨ r.status ≥ 300 → fetchSuggestionsE jsParse (.ok r) = .ok [])
    ∧ (∀ (jsParse : Str → Option Json) (json : Option (Except Unit Json))
        (text : Option (Except Unit Str)),
        fetchSuggestionsE jsParse (.ok ⟨500, json, text⟩) = .ok [])
    ∧ (∀ (status : Int) (s t : Str),
        fetchSuggestionsE (fun _ => none)
          (.ok ⟨status, some (.ok (.jstr s)), some (.ok t)⟩) = .ok []) := by
  have hnon2xx : ∀ (jsParse : Str → Option Json) (r : RUResponse),
      r.status < 200 ∨ r.status ≥ 300 → fetchSuggestionsE jsParse (.ok r) = .ok [] := by
    intro jsParse r hr
    unfold fetchSuggestionsE
    simp only [bind, Except.bind, pure, Except.pure]
    rw [if_pos hr]
  refine ⟨?_, fun jsParse => rfl, hnon2xx, ?_, ?_⟩
  · intro jsParse net
    cases net with
    | error e => rfl
    | ok r =>
      unfold fetchSuggestionsE
      simp only [bind, Except.bind, pure, Except.pure]
      by_cases hr : r.status < 200 ∨ r.status ≥ 300
      · rw [if_pos hr]
        rfl
      · rw [if_neg hr]
        rfl
  · intro jsParse json text
    exact hnon2xx jsParse ⟨500, json, text⟩ (by norm_num)
  · intro status s t
    unfold fetchSuggestionsE
    simp only [bind, Except.bind, pure, Except.pure]
    have hpayload : resolvePayload (fun _ => none)
        ⟨status, some (.ok (.jstr s)), some (.ok t)⟩ = Json.null := by
      unfold resolvePayload
      simp only [resolvePossiblePromise, safeParseJson]
      by_cases hs : s = []
      · rw [if_pos hs]
        by_cases ht : t = []
        · rw [if_pos ht]
          rfl
        · rw [if_neg ht]
          rfl
      · rw [if_neg hs]
        by_cases ht : t = []
        · rw [if_pos ht]
          rfl
        · rw [if_neg ht]
          rfl
    rw [hpayload]
    by_cases hr : status < 200 ∨ status ≥ 300
    · rw [if_pos hr]
    · rw [if_neg hr]
      simp [extractWords, extractOpenAIWords, Json.isObjectLike]

/-- Witness for C6: an HTTP 500 transport response with an unparsable
string payload yields `.ok []`, discharging the non-2xx hypothesis at
status 500. -/
theorem llm_fetch_never_throws_witness :
    ((500 : Int) < 200 ∨ (500 : Int) ≥ 300) ∧
      fetchSuggestionsE (fun _ => none)
          (.ok { status := 500, json := none, text := some (.ok ['x']) }) = .ok [] :=
  ⟨by norm_num,
    llm_fetch_never_throws.2.2.1 (fun _ => none)
      { status := 500, json := none, text := some (.ok ['x']) } (by norm_num)⟩

end Completr
